import Mathlib

/-!
# Verification of the finite-diff numerical differentiation library

Shallow embedding of `src/finitediff.cpp` (namespace `fd`): finite-difference
gradient, Jacobian and Hessian of a caller-supplied function, plus elementwise
approximate-equality comparators.

Modelling choices:
* `double` is modelled by `ℚ` (exact arithmetic; division is Lean's total
  division, so `/ 0 = 0`).
* `Eigen::VectorXd` is a `List ℚ`; `Eigen::MatrixXd` results are lists of
  rows/columns, and the comparator matrices carry explicit `rows`/`cols`
  (structure `Mat`) just as Eigen matrices do.
* Each differencing routine is embedded as a fold that threads the mutable
  working buffer `xx` explicitly (mirroring the C++ mutate-then-restore
  loops) and additionally records the exact list of points at which `f` is
  called, in call order (the trace), so that evaluation-count and
  perturbation-shape claims can be stated.
* The C++ `assert` on comparator shape agreement is modelled by returning
  `Option Bool`: `none` is the fail-fast outcome on shape mismatch.
-/

namespace fd

/-- The external coefficients `c1` in `c1 * f(x + c2)` (`coeff` table,
finitediff.cpp lines 25-26 and 62-63). -/
def coeff : Fin 4 → List ℚ := fun a =>
  [[(1 : ℚ), -1],
   [1, -8, 8, -1],
   [-1, 9, -45, 45, -9, 1],
   [3, -32, 168, -672, 672, -168, 32, -3]].getD a.val []

/-- The internal coefficients `c2` in `c1 * f(x + c2)` (`coeff2` table,
finitediff.cpp lines 28-29 and 65-66). -/
def coeff2 : Fin 4 → List ℚ := fun a =>
  [[(1 : ℚ), -1],
   [-2, -1, 1, 2],
   [-3, -2, -1, 1, 2, 3],
   [-4, -3, -2, -1, 1, 2, 3, 4]].getD a.val []

/-- The denominators of the finite difference (`dd` table, line 32 / 69). -/
def dd : Fin 4 → ℚ := fun a => [(2 : ℚ), 12, 60, 840].getD a.val 0

/-- `innerSteps = 2 * (accuracy + 1)` (line 36 / 73). -/
def innerSteps (a : Fin 4) : Nat := 2 * (a.val + 1)

/-- Single-coordinate perturbation: coordinate `d` of `x` incremented by `δ`
(the effect of `xx[d] += δ` on a buffer holding `x`). -/
def pert (x : List ℚ) (d : Nat) (δ : ℚ) : List ℚ :=
  x.set d (x.getD d 0 + δ)

/-- One iteration of the inner stencil loop of `finite_gradient`
(lines 42-46): perturb `xx[d]`, accumulate `coeff[a][s] * f(xx)`, restore
`xx[d] = x[d]`.  State: `(xx, grad-entry accumulator, trace)`. -/
def gradInnerStep (x : List ℚ) (f : List ℚ → ℚ) (a : Fin 4) (eps : ℚ)
    (d : Nat) (st : List ℚ × ℚ × List (List ℚ)) (s : Nat) :
    List ℚ × ℚ × List (List ℚ) :=
  let xx1 := st.1.set d (st.1.getD d 0 + (coeff2 a).getD s 0 * eps)
  (xx1.set d (x.getD d 0),
   st.2.1 + (coeff a).getD s 0 * f xx1,
   st.2.2 ++ [xx1])

/-- One iteration of the outer dimension loop of `finite_gradient`
(lines 40-48): run the inner loop from accumulator `0`, then divide by
`dd[accuracy] * eps`.  State: `(xx, grad so far, trace)`. -/
def gradDimStep (x : List ℚ) (f : List ℚ → ℚ) (a : Fin 4) (eps : ℚ)
    (st : List ℚ × List ℚ × List (List ℚ)) (d : Nat) :
    List ℚ × List ℚ × List (List ℚ) :=
  let r := (List.range (innerSteps a)).foldl (gradInnerStep x f a eps d)
    (st.1, 0, st.2.2)
  (r.1, st.2.1 ++ [r.2.1 / (dd a * eps)], r.2.2)

/-- `finite_gradient` (lines 14-49), instrumented: returns the final working
buffer `xx`, the gradient, and the trace of evaluation points. -/
def finite_gradient_run (x : List ℚ) (f : List ℚ → ℚ) (a : Fin 4) (eps : ℚ) :
    List ℚ × List ℚ × List (List ℚ) :=
  (List.range x.length).foldl (gradDimStep x f a eps) (x, [], [])

/-- The gradient returned by `finite_gradient`. -/
def finite_gradient (x : List ℚ) (f : List ℚ → ℚ) (a : Fin 4) (eps : ℚ) :
    List ℚ :=
  (finite_gradient_run x f a eps).2.1

/-- Closed form of one gradient entry:
`(Σ_s coeff[a][s] * f(x with x[d] += coeff2[a][s]*eps)) / (dd[a] * eps)`. -/
def gradEntry (x : List ℚ) (f : List ℚ → ℚ) (a : Fin 4) (eps : ℚ) (d : Nat) :
    ℚ :=
  ((List.range (innerSteps a)).map (fun s =>
    (coeff a).getD s 0 * f (pert x d ((coeff2 a).getD s 0 * eps)))).sum /
    (dd a * eps)

/-- The points at which `f` is evaluated while dimension `d` is processed. -/
def gradPoints (x : List ℚ) (a : Fin 4) (eps : ℚ) (d : Nat) :
    List (List ℚ) :=
  (List.range (innerSteps a)).map (fun s =>
    pert x d ((coeff2 a).getD s 0 * eps))

lemma set_getD_self (l : List ℚ) (n : Nat) : l.set n (l.getD n 0) = l := by
  induction l generalizing n with
  | nil => simp
  | cons a t ih =>
    cases n with
    | zero => simp
    | succ k =>
      simp only [List.getD_cons_succ, List.set_cons_succ]
      rw [ih]

lemma pert_restore (x : List ℚ) (d : Nat) (δ : ℚ) :
    (pert x d δ).set d (x.getD d 0) = x := by
  rw [pert, List.set_set, set_getD_self]

lemma gradInner_foldl (x : List ℚ) (f : List ℚ → ℚ) (a : Fin 4) (eps : ℚ)
    (d : Nat) (l : List Nat) (g0 : ℚ) (tr0 : List (List ℚ)) :
    l.foldl (gradInnerStep x f a eps d) (x, g0, tr0) =
      (x,
       g0 + (l.map (fun s =>
         (coeff a).getD s 0 * f (pert x d ((coeff2 a).getD s 0 * eps)))).sum,
       tr0 ++ l.map (fun s => pert x d ((coeff2 a).getD s 0 * eps))) := by
  induction l generalizing g0 tr0 with
  | nil => simp
  | cons s t ih =>
    have hstep : gradInnerStep x f a eps d (x, g0, tr0) s =
        (x, g0 + (coeff a).getD s 0 * f (pert x d ((coeff2 a).getD s 0 * eps)),
         tr0 ++ [pert x d ((coeff2 a).getD s 0 * eps)]) := by
      simp only [gradInnerStep]
      rw [show x.set d (x.getD d 0 + (coeff2 a).getD s 0 * eps)
            = pert x d ((coeff2 a).getD s 0 * eps) from rfl, pert_restore]
    rw [List.foldl_cons, hstep, ih]
    simp [add_assoc]

lemma gradDim_foldl (x : List ℚ) (f : List ℚ → ℚ) (a : Fin 4) (eps : ℚ)
    (l : List Nat) (g0 : List ℚ) (tr0 : List (List ℚ)) :
    l.foldl (gradDimStep x f a eps) (x, g0, tr0) =
      (x, g0 ++ l.map (gradEntry x f a eps),
       tr0 ++ (l.map (gradPoints x a eps)).flatten) := by
  induction l generalizing g0 tr0 with
  | nil => simp
  | cons d t ih =>
    have hstep : gradDimStep x f a eps (x, g0, tr0) d =
        (x, g0 ++ [gradEntry x f a eps d], tr0 ++ gradPoints x a eps d) := by
      simp only [gradDimStep, gradInner_foldl, gradEntry, gradPoints, zero_add]
    rw [List.foldl_cons, hstep, ih]
    simp

lemma finite_gradient_run_eq (x : List ℚ) (f : List ℚ → ℚ) (a : Fin 4)
    (eps : ℚ) :
    finite_gradient_run x f a eps =
      (x, (List.range x.length).map (gradEntry x f a eps),
       ((List.range x.length).map (gradPoints x a eps)).flatten) := by
  rw [finite_gradient_run, gradDim_foldl]
  simp

lemma getD_map_range {α : Type} (dv : α) (n : Nat) (g : Nat → α) (d : Nat)
    (hd : d < n) : ((List.range n).map g).getD d dv = g d := by
  rw [List.getD_eq_getElem?_getD]
  simp [List.getElem?_map, List.getElem?_range, hd]

lemma getD_set_of_ne (x : List ℚ) (d i : Nat) (v : ℚ) (h : d ≠ i) :
    (x.set d v).getD i 0 = x.getD i 0 := by
  rw [List.getD_eq_getElem?_getD, List.getD_eq_getElem?_getD,
    List.getElem?_set_ne h]

lemma getD_set_self_of_lt (x : List ℚ) (d : Nat) (v : ℚ) (h : d < x.length) :
    (x.set d v).getD d 0 = v := by
  rw [List.getD_eq_getElem?_getD]
  simp [List.getElem?_set_self, h]

/-- C1: for every point `x` of length `n`, pure `f`, accuracy `a ∈ {0,1,2,3}`
and `eps ≠ 0`, `finite_gradient` returns a vector of length `n` whose entry
`d` equals `(Σ_s coeff[a][s] * f(x with x[d] := x[d] + coeff2[a][s]*eps)) /
(dd[a] * eps)`. -/
theorem finite_gradient_spec (x : List ℚ) (f : List ℚ → ℚ) (a : Fin 4)
    (eps : ℚ) (heps : eps ≠ 0) :
    (finite_gradient x f a eps).length = x.length ∧
    ∀ d, d < x.length →
      (finite_gradient x f a eps).getD d 0 = gradEntry x f a eps d := by
  constructor
  · rw [finite_gradient, finite_gradient_run_eq]
    simp
  · intro d hd
    rw [finite_gradient, finite_gradient_run_eq]
    exact getD_map_range 0 x.length _ d hd

/-- Witness for C1 at `x = [1, 2]`, `f = sum`, accuracy 0, `eps = 1`. -/
theorem finite_gradient_spec_witness :
    (finite_gradient [(1 : ℚ), 2] (fun p => p.sum) 0 1).length =
        ([(1 : ℚ), 2] : List ℚ).length ∧
    ∀ d, d < ([(1 : ℚ), 2] : List ℚ).length →
      (finite_gradient [(1 : ℚ), 2] (fun p => p.sum) 0 1).getD d 0 =
        gradEntry [(1 : ℚ), 2] (fun p => p.sum) 0 1 d :=
  finite_gradient_spec [(1 : ℚ), 2] (fun p => p.sum) 0 1 (by norm_num)

/-- C6: for `eps ≠ 0`, `finite_gradient` evaluates `f` exactly
`n * 2*(a+1)` times, and every argument passed to `f` differs from `x` in at
most one coordinate. -/
theorem finite_gradient_eval_points (x : List ℚ) (f : List ℚ → ℚ) (a : Fin 4)
    (eps : ℚ) (heps : eps ≠ 0) :
    (finite_gradient_run x f a eps).2.2.length =
      x.length * (2 * (a.val + 1)) ∧
    ∀ p ∈ (finite_gradient_run x f a eps).2.2,
      ∃ d, ∀ i, i ≠ d → p.getD i 0 = x.getD i 0 := by
  rw [finite_gradient_run_eq]
  constructor
  · simp [List.length_flatten, List.map_map, Function.comp_def, gradPoints,
      innerSteps, List.map_const]
  · intro p hp
    obtain ⟨L, hL, hpL⟩ := List.mem_flatten.mp hp
    obtain ⟨d, _, rfl⟩ := List.mem_map.mp hL
    obtain ⟨s, _, rfl⟩ := List.mem_map.mp hpL
    exact ⟨d, fun i hi => getD_set_of_ne x d i _ (fun h => hi h.symm)⟩

/-- Witness for C6 at `x = [1, 2]`, `f = sum`, accuracy 0, `eps = 1`. -/
theorem finite_gradient_eval_points_witness :
    (finite_gradient_run [(1 : ℚ), 2] (fun p => p.sum) 0 1).2.2.length =
      ([(1 : ℚ), 2] : List ℚ).length * (2 * ((0 : Fin 4).val + 1)) ∧
    ∀ p ∈ (finite_gradient_run [(1 : ℚ), 2] (fun p => p.sum) 0 1).2.2,
      ∃ d, ∀ i, i ≠ d →
        p.getD i 0 = ([(1 : ℚ), 2] : List ℚ).getD i 0 :=
  finite_gradient_eval_points [(1 : ℚ), 2] (fun p => p.sum) 0 1 (by norm_num)

/-- One iteration of the inner stencil loop of `finite_jacobian`
(lines 79-83): perturb `xx[d]`, accumulate `coeff[a][s] * f(xx)` into
column `d` componentwise, restore `xx[d] = x[d]`.
State: `(xx, column accumulator, trace)`. -/
def jacInnerStep (x : List ℚ) (f : List ℚ → List ℚ) (a : Fin 4) (eps : ℚ)
    (d : Nat) (st : List ℚ × List ℚ × List (List ℚ)) (s : Nat) :
    List ℚ × List ℚ × List (List ℚ) :=
  let xx1 := st.1.set d (st.1.getD d 0 + (coeff2 a).getD s 0 * eps)
  (xx1.set d (x.getD d 0),
   List.zipWith (fun c v => c + (coeff a).getD s 0 * v) st.2.1 (f xx1),
   st.2.2 ++ [xx1])

/-- Column `d` of the Jacobian as computed by the inner loop: start from the
zero column of length `m`, accumulate the weighted function values, then
divide componentwise by `dd[a] * eps`. -/
def jacColRaw (x : List ℚ) (f : List ℚ → List ℚ) (a : Fin 4) (eps : ℚ)
    (m : Nat) (d : Nat) : List ℚ :=
  ((List.range (innerSteps a)).foldl (fun c s =>
    List.zipWith (fun u v => u + (coeff a).getD s 0 * v) c
      (f (pert x d ((coeff2 a).getD s 0 * eps)))) (List.replicate m 0)).map
    (fun c => c / (dd a * eps))

/-- One iteration of the outer dimension loop of `finite_jacobian`
(lines 77-85): zero column `d` (`jac.col(d).setZero()`), run the inner loop,
divide the column by `dd[accuracy] * eps`.
State: `(xx, columns so far, trace)`. -/
def jacDimStep (x : List ℚ) (f : List ℚ → List ℚ) (a : Fin 4) (eps : ℚ)
    (m : Nat) (st : List ℚ × List (List ℚ) × List (List ℚ)) (d : Nat) :
    List ℚ × List (List ℚ) × List (List ℚ) :=
  let r := (List.range (innerSteps a)).foldl (jacInnerStep x f a eps d)
    (st.1, List.replicate m 0, st.2.2)
  (r.1, st.2.1 ++ [r.2.1.map (fun c => c / (dd a * eps))], r.2.2)

/-- `finite_jacobian` (lines 51-86), instrumented.  The initial call `f x`
at line 71 (`jac.resize(f(x).rows(), x.rows())`) fixes the row count `m` and
is the first entry of the trace.  Returns `(xx, columns, trace)`. -/
def finite_jacobian_run (x : List ℚ) (f : List ℚ → List ℚ) (a : Fin 4)
    (eps : ℚ) : List ℚ × List (List ℚ) × List (List ℚ) :=
  (List.range x.length).foldl (jacDimStep x f a eps (f x).length)
    (x, [], [x])

/-- The Jacobian returned by `finite_jacobian`, as its list of columns
(column `d` holds the partial derivatives with respect to `x[d]`). -/
def finite_jacobian (x : List ℚ) (f : List ℚ → List ℚ) (a : Fin 4)
    (eps : ℚ) : List (List ℚ) :=
  (finite_jacobian_run x f a eps).2.1

lemma jacInner_foldl (x : List ℚ) (f : List ℚ → List ℚ) (a : Fin 4)
    (eps : ℚ) (d : Nat) (l : List Nat) (col0 : List ℚ)
    (tr0 : List (List ℚ)) :
    l.foldl (jacInnerStep x f a eps d) (x, col0, tr0) =
      (x,
       l.foldl (fun c s =>
         List.zipWith (fun u v => u + (coeff a).getD s 0 * v) c
           (f (pert x d ((coeff2 a).getD s 0 * eps)))) col0,
       tr0 ++ l.map (fun s => pert x d ((coeff2 a).getD s 0 * eps))) := by
  induction l generalizing col0 tr0 with
  | nil => simp
  | cons s t ih =>
    have hstep : jacInnerStep x f a eps d (x, col0, tr0) s =
        (x,
         List.zipWith (fun u v => u + (coeff a).getD s 0 * v) col0
           (f (pert x d ((coeff2 a).getD s 0 * eps))),
         tr0 ++ [pert x d ((coeff2 a).getD s 0 * eps)]) := by
      simp only [jacInnerStep]
      rw [show x.set d (x.getD d 0 + (coeff2 a).getD s 0 * eps)
            = pert x d ((coeff2 a).getD s 0 * eps) from rfl, pert_restore]
    rw [List.foldl_cons, hstep, ih, List.foldl_cons]
    simp

lemma jacDim_foldl (x : List ℚ) (f : List ℚ → List ℚ) (a : Fin 4) (eps : ℚ)
    (m : Nat) (l : List Nat) (cols0 : List (List ℚ))
    (tr0 : List (List ℚ)) :
    l.foldl (jacDimStep x f a eps m) (x, cols0, tr0) =
      (x, cols0 ++ l.map (jacColRaw x f a eps m),
       tr0 ++ (l.map (gradPoints x a eps)).flatten) := by
  induction l generalizing cols0 tr0 with
  | nil => simp
  | cons d t ih =>
    have hstep : jacDimStep x f a eps m (x, cols0, tr0) d =
        (x, cols0 ++ [jacColRaw x f a eps m d],
         tr0 ++ gradPoints x a eps d) := by
      simp only [jacDimStep, jacInner_foldl, jacColRaw, gradPoints]
    rw [List.foldl_cons, hstep, ih]
    simp

lemma finite_jacobian_run_eq (x : List ℚ) (f : List ℚ → List ℚ) (a : Fin 4)
    (eps : ℚ) :
    finite_jacobian_run x f a eps =
      (x, (List.range x.length).map (jacColRaw x f a eps (f x).length),
       x :: ((List.range x.length).map (gradPoints x a eps)).flatten) := by
  rw [finite_jacobian_run, jacDim_foldl]
  simp

lemma zip_map_range (h : Nat → ℚ) (w : ℚ) (v : List ℚ) :
    List.zipWith (fun u z => u + w * z) ((List.range v.length).map h) v =
      (List.range v.length).map (fun r => h r + w * v.getD r 0) := by
  induction v generalizing h with
  | nil => simp
  | cons b t ih =>
    rw [List.length_cons, List.range_succ_eq_map, List.map_cons,
      List.map_map, List.map_cons, List.map_map]
    simp only [List.zipWith_cons_cons, Function.comp_def,
      List.getD_cons_zero, List.getD_cons_succ]
    rw [ih (fun r => h (r + 1))]

lemma zipfold (q : Nat → ℚ) (g : Nat → List ℚ) (m : Nat)
    (hg : ∀ s, (g s).length = m) (l : List Nat) (h : Nat → ℚ) :
    l.foldl (fun c s => List.zipWith (fun u v => u + q s * v) c (g s))
      ((List.range m).map h) =
      (List.range m).map (fun r =>
        h r + (l.map (fun s => q s * (g s).getD r 0)).sum) := by
  induction l generalizing h with
  | nil => simp
  | cons s t ih =>
    rw [List.foldl_cons]
    have h1 : List.zipWith (fun u v => u + q s * v) ((List.range m).map h)
        (g s) = (List.range m).map (fun r => h r + q s * (g s).getD r 0) := by
      have h2 := zip_map_range h (q s) (g s)
      rwa [hg s] at h2
    rw [h1, ih (fun r => h r + q s * (g s).getD r 0)]
    simp [add_assoc]

lemma jacColRaw_eq (x : List ℚ) (f : List ℚ → List ℚ) (a : Fin 4) (eps : ℚ)
    (m : Nat) (d : Nat) (hm : ∀ p, (f p).length = m) :
    jacColRaw x f a eps m d =
      (List.range m).map (fun r =>
        gradEntry x (fun p => (f p).getD r 0) a eps d) := by
  rw [jacColRaw]
  have h0 : (List.replicate m (0 : ℚ)) = (List.range m).map (fun _ => 0) := by
    simp [List.map_const]
  rw [h0, zipfold (fun s => (coeff a).getD s 0)
    (fun s => f (pert x d ((coeff2 a).getD s 0 * eps))) m (fun s => hm _),
    List.map_map]
  simp [gradEntry, Function.comp_def]

/-- C3: for `eps ≠ 0` and `f` with outputs of uniform length `m`,
`finite_jacobian` returns an `m × n` matrix (held as `n` columns of length
`m`) whose column `d` is the gradient weighted-sum-then-divide procedure
applied componentwise; the trace starts with the single sizing evaluation at
the unperturbed `x` (whose value enters no entry: any `g` that agrees with
`f` on the perturbed stencil points and has the same output length at `x`
yields the same matrix), and the total number of evaluations of `f` is
`n * 2*(a+1) + 1`. -/
theorem finite_jacobian_spec (x : List ℚ) (f : List ℚ → List ℚ) (a : Fin 4)
    (eps : ℚ) (m : Nat) (heps : eps ≠ 0) (hm : ∀ p, (f p).length = m) :
    (finite_jacobian x f a eps).length = x.length ∧
    (∀ d, d < x.length → (finite_jacobian x f a eps).getD d [] =
      (List.range m).map (fun r =>
        gradEntry x (fun p => (f p).getD r 0) a eps d)) ∧
    (∀ d, d < x.length →
      ((finite_jacobian x f a eps).getD d []).length = m) ∧
    (finite_jacobian_run x f a eps).2.2 =
      x :: ((List.range x.length).map (gradPoints x a eps)).flatten ∧
    (finite_jacobian_run x f a eps).2.2.length =
      x.length * (2 * (a.val + 1)) + 1 ∧
    (∀ g : List ℚ → List ℚ, (g x).length = (f x).length →
      (∀ d s, d < x.length → s < innerSteps a →
        g (pert x d ((coeff2 a).getD s 0 * eps)) =
          f (pert x d ((coeff2 a).getD s 0 * eps))) →
      finite_jacobian x g a eps = finite_jacobian x f a eps) := by
  refine ⟨?_, ?_, ?_, ?_, ?_, ?_⟩
  · rw [finite_jacobian, finite_jacobian_run_eq]
    simp
  · intro d hd
    rw [finite_jacobian, finite_jacobian_run_eq]
    have h1 := getD_map_range ([] : List ℚ) x.length
      (jacColRaw x f a eps (f x).length) d hd
    have h2 : jacColRaw x f a eps (f x).length d =
        (List.range m).map (fun r =>
          gradEntry x (fun p => (f p).getD r 0) a eps d) := by
      rw [hm x]
      exact jacColRaw_eq x f a eps m d hm
    exact h1.trans h2
  · intro d hd
    rw [finite_jacobian, finite_jacobian_run_eq]
    have h1 := getD_map_range ([] : List ℚ) x.length
      (jacColRaw x f a eps (f x).length) d hd
    have h2 : jacColRaw x f a eps (f x).length d =
        (List.range m).map (fun r =>
          gradEntry x (fun p => (f p).getD r 0) a eps d) := by
      rw [hm x]
      exact jacColRaw_eq x f a eps m d hm
    have h3 := congrArg List.length (h1.trans h2)
    simpa using h3
  · rw [finite_jacobian_run_eq]
  · rw [finite_jacobian_run_eq]
    simp [List.length_flatten, List.map_map, Function.comp_def, gradPoints,
      innerSteps, List.map_const]
  · intro g hg hagree
    rw [finite_jacobian, finite_jacobian, finite_jacobian_run_eq,
      finite_jacobian_run_eq]
    have hcols : ∀ d ∈ List.range x.length,
        jacColRaw x g a eps (g x).length d =
          jacColRaw x f a eps (f x).length d := by
      intro d hd
      rw [List.mem_range] at hd
      rw [jacColRaw, jacColRaw, hg]
      have hfold : (List.range (innerSteps a)).foldl (fun c s =>
          List.zipWith (fun u v => u + (coeff a).getD s 0 * v) c
            (g (pert x d ((coeff2 a).getD s 0 * eps))))
          (List.replicate (f x).length 0) =
        (List.range (innerSteps a)).foldl (fun c s =>
          List.zipWith (fun u v => u + (coeff a).getD s 0 * v) c
            (f (pert x d ((coeff2 a).getD s 0 * eps))))
          (List.replicate (f x).length 0) := by
        apply List.foldl_ext
        intro c s hs
        rw [List.mem_range] at hs
        rw [hagree d s hd hs]
      rw [hfold]
    simp only [List.map_congr_left hcols]

/-- Witness for C3 at `x = [1, 2]`,
`f p = [p.sum, 3 * p.getD 0 0]` (so `m = 2`), accuracy 0, `eps = 1`. -/
theorem finite_jacobian_spec_witness :
    (finite_jacobian [(1 : ℚ), 2]
        (fun p => [p.sum, 3 * p.getD 0 0]) 0 1).length =
      ([(1 : ℚ), 2] : List ℚ).length ∧
    (∀ d, d < ([(1 : ℚ), 2] : List ℚ).length →
      (finite_jacobian [(1 : ℚ), 2]
          (fun p => [p.sum, 3 * p.getD 0 0]) 0 1).getD d [] =
        (List.range 2).map (fun r =>
          gradEntry [(1 : ℚ), 2]
            (fun p => ([p.sum, 3 * p.getD 0 0].getD r 0)) 0 1 d)) ∧
    (∀ d, d < ([(1 : ℚ), 2] : List ℚ).length →
      ((finite_jacobian [(1 : ℚ), 2]
          (fun p => [p.sum, 3 * p.getD 0 0]) 0 1).getD d []).length = 2) ∧
    (finite_jacobian_run [(1 : ℚ), 2]
        (fun p => [p.sum, 3 * p.getD 0 0]) 0 1).2.2 =
      [(1 : ℚ), 2] ::
        ((List.range ([(1 : ℚ), 2] : List ℚ).length).map
          (gradPoints [(1 : ℚ), 2] 0 1)).flatten ∧
    (finite_jacobian_run [(1 : ℚ), 2]
        (fun p => [p.sum, 3 * p.getD 0 0]) 0 1).2.2.length =
      ([(1 : ℚ), 2] : List ℚ).length * (2 * ((0 : Fin 4).val + 1)) + 1 ∧
    (∀ g : List ℚ → List ℚ,
      (g [(1 : ℚ), 2]).length =
        ((fun (p : List ℚ) => [p.sum, 3 * p.getD 0 0]) [(1 : ℚ), 2]).length →
      (∀ d s, d < ([(1 : ℚ), 2] : List ℚ).length → s < innerSteps 0 →
        g (pert [(1 : ℚ), 2] d ((coeff2 0).getD s 0 * 1)) =
          (fun (p : List ℚ) => [p.sum, 3 * p.getD 0 0])
            (pert [(1 : ℚ), 2] d ((coeff2 0).getD s 0 * 1))) →
      finite_jacobian [(1 : ℚ), 2] g 0 1 =
        finite_jacobian [(1 : ℚ), 2]
          (fun p => [p.sum, 3 * p.getD 0 0]) 0 1) :=
  finite_jacobian_spec [(1 : ℚ), 2] (fun p => [p.sum, 3 * p.getD 0 0]) 0 1 2
    (by norm_num) (fun p => rfl)

lemma stencil_tables : ∀ a : Fin 4,
    (coeff a).length = 2 * (a.val + 1) ∧
    (coeff2 a).length = 2 * (a.val + 1) ∧
    (coeff2 a).reverse = (coeff2 a).map (fun c => -c) ∧
    ∀ c ∈ coeff2 a, c ≠ 0 := by decide

lemma getD_mem_of_lt (l : List ℚ) (n : Nat) (h : n < l.length) :
    l.getD n 0 ∈ l := by
  have h1 : l.getD n 0 = l.get ⟨n, h⟩ := by
    simp [List.getD_eq_getElem?_getD, List.getElem?_eq_getElem h]
  rw [h1]
  exact List.get_mem l n h

lemma flatten_gradPoints_ne (x : List ℚ) (a : Fin 4) (eps : ℚ)
    (heps : eps ≠ 0) :
    ∀ p ∈ ((List.range x.length).map (gradPoints x a eps)).flatten,
      p ≠ x := by
  intro p hp
  obtain ⟨L, hL, hpL⟩ := List.mem_flatten.mp hp
  obtain ⟨d, hd, rfl⟩ := List.mem_map.mp hL
  rw [List.mem_range] at hd
  obtain ⟨s, hs, rfl⟩ := List.mem_map.mp hpL
  rw [List.mem_range] at hs
  intro hcontra
  have hsl : s < (coeff2 a).length := by
    rw [(stencil_tables a).2.1]
    exact hs
  have hc2 : (coeff2 a).getD s 0 ≠ 0 :=
    (stencil_tables a).2.2.2 _ (getD_mem_of_lt _ s hsl)
  have hdiff : (pert x d ((coeff2 a).getD s 0 * eps)).getD d 0 =
      x.getD d 0 + (coeff2 a).getD s 0 * eps :=
    getD_set_self_of_lt x d _ hd
  rw [hcontra] at hdiff
  exact mul_ne_zero hc2 heps (by linarith)

/-- C7 (amended): for every accuracy order the outer- and inner-coefficient
tables have equal length `2*(a+1)`, the inner offsets are symmetric around
zero, and no inner offset is zero; consequently, for `eps ≠ 0`, no stencil
evaluation of `finite_gradient` or `finite_jacobian` is at the unperturbed
point `x`.  (Amendment: `finite_jacobian` additionally makes one initial
sizing evaluation at the unperturbed `x` — the first trace entry — so only
its stencil evaluations, the tail of the trace, avoid `x`.) -/
theorem stencil_invariants (x : List ℚ) (fs : List ℚ → ℚ)
    (fv : List ℚ → List ℚ) (a : Fin 4) (eps : ℚ) (heps : eps ≠ 0) :
    ((coeff a).length = 2 * (a.val + 1) ∧
     (coeff2 a).length = 2 * (a.val + 1) ∧
     (coeff2 a).reverse = (coeff2 a).map (fun c => -c) ∧
     ∀ c ∈ coeff2 a, c ≠ 0) ∧
    (∀ p ∈ (finite_gradient_run x fs a eps).2.2, p ≠ x) ∧
    (∀ p ∈ (finite_jacobian_run x fv a eps).2.2.tail, p ≠ x) := by
  refine ⟨stencil_tables a, ?_, ?_⟩
  · rw [finite_gradient_run_eq]
    exact flatten_gradPoints_ne x a eps heps
  · rw [finite_jacobian_run_eq]
    exact flatten_gradPoints_ne x a eps heps

/-- Witness for the amended C7 at `x = [1]`, accuracy 0, `eps = 1`. -/
theorem stencil_invariants_witness :
    ((coeff 0).length = 2 * ((0 : Fin 4).val + 1) ∧
     (coeff2 0).length = 2 * ((0 : Fin 4).val + 1) ∧
     (coeff2 0).reverse = (coeff2 0).map (fun c => -c) ∧
     ∀ c ∈ coeff2 0, c ≠ 0) ∧
    (∀ p ∈ (finite_gradient_run [(1 : ℚ)] (fun p => p.sum) 0 1).2.2,
      p ≠ [(1 : ℚ)]) ∧
    (∀ p ∈ (finite_jacobian_run [(1 : ℚ)] (fun p => p) 0 1).2.2.tail,
      p ≠ [(1 : ℚ)]) :=
  stencil_invariants [(1 : ℚ)] (fun p => p.sum) (fun p => p) 0 1
    (by norm_num)

/-- C7 counterexample: with `x = [0]`, `f = id`, accuracy 0 and
`eps = 1 ≠ 0`, `finite_jacobian` does evaluate `f` at the unperturbed point
`x` (the initial sizing call `f(x)` at line 71), so the claim that
`finite_jacobian` never evaluates `f` at `x` is false. -/
theorem stencil_invariants_counterexample :
    ¬ (∀ p ∈ (finite_jacobian_run [(0 : ℚ)] (fun p => p) 0 1).2.2,
        p ≠ [(0 : ℚ)]) := by
  intro h
  refine h [(0 : ℚ)] ?_ rfl
  rw [finite_jacobian_run_eq]
  exact List.mem_cons_self _ _

/-- Single-coordinate decrement: the effect of `xx[d] -= δ`. -/
def pertSub (x : List ℚ) (d : Nat) (δ : ℚ) : List ℚ :=
  x.set d (x.getD d 0 - δ)

/-- One iteration of the inner loop of `finite_hessian` (lines 99-113) for
the pair `(i, j)`: evaluate `f` at `xx`, at `xx` with `i` and `j` both
incremented by `eps`, at `xx` with only `i` incremented, and at `xx` with
only `j` incremented (via the increment/decrement sequence of the source),
record `(f1 - f2 - f3 + f4) / (eps * eps)`, then restore `xx[i] = x[i]`,
`xx[j] = x[j]`.  State: `(xx, row so far, trace)`. -/
def hessInner (x : List ℚ) (f : List ℚ → ℚ) (eps : ℚ) (i : Nat)
    (st : List ℚ × List ℚ × List (List ℚ)) (j : Nat) :
    List ℚ × List ℚ × List (List ℚ) :=
  let xx := st.1
  let f4 := f xx
  let xx2 := pert (pert xx i eps) j eps
  let f1 := f xx2
  let xx3 := pertSub xx2 j eps
  let f2 := f xx3
  let xx5 := pertSub (pert xx3 j eps) i eps
  let f3 := f xx5
  ((xx5.set i (x.getD i 0)).set j (x.getD j 0),
   st.2.1 ++ [(f1 - f2 - f3 + f4) / (eps * eps)],
   st.2.2 ++ [xx, xx2, xx3, xx5])

/-- One iteration of the outer row loop of `finite_hessian` (lines 98-114).
State: `(xx, rows so far, trace)`. -/
def hessRowStep (x : List ℚ) (f : List ℚ → ℚ) (eps : ℚ)
    (st : List ℚ × List (List ℚ) × List (List ℚ)) (i : Nat) :
    List ℚ × List (List ℚ) × List (List ℚ) :=
  let r := (List.range x.length).foldl (hessInner x f eps i)
    (st.1, [], st.2.2)
  (r.1, st.2.1 ++ [r.2.1], r.2.2)

/-- `finite_hessian` (lines 88-115), instrumented: returns the final working
buffer `xx`, the Hessian (as its list of rows), and the trace of evaluation
points. -/
def finite_hessian_run (x : List ℚ) (f : List ℚ → ℚ) (eps : ℚ) :
    List ℚ × List (List ℚ) × List (List ℚ) :=
  (List.range x.length).foldl (hessRowStep x f eps) (x, [], [])

/-- The Hessian returned by `finite_hessian`, as its list of rows. -/
def finite_hessian (x : List ℚ) (f : List ℚ → ℚ) (eps : ℚ) :
    List (List ℚ) :=
  (finite_hessian_run x f eps).2.1

/-- Closed form of a Hessian entry: the four-point mixed second difference
`(f(x+eps·ei+eps·ej) - f(x+eps·ei) - f(x+eps·ej) + f(x)) / eps²`. -/
def hessEntry (x : List ℚ) (f : List ℚ → ℚ) (eps : ℚ) (i j : Nat) : ℚ :=
  (f (pert (pert x i eps) j eps) - f (pert x i eps) - f (pert x j eps)
    + f x) / (eps * eps)

/-- The four points at which `f` is evaluated for the pair `(i, j)`. -/
def hessPts (x : List ℚ) (eps : ℚ) (i j : Nat) : List (List ℚ) :=
  [x, pert (pert x i eps) j eps, pert x i eps, pert x j eps]

lemma pert_length (x : List ℚ) (d : Nat) (δ : ℚ) :
    (pert x d δ).length = x.length := by
  simp [pert]

lemma pert_cancel (y : List ℚ) (j : Nat) (e : ℚ) (hj : j < y.length) :
    pertSub (pert y j e) j e = y := by
  rw [pertSub, pert, getD_set_self_of_lt y j _ hj, List.set_set]
  have h : y.getD j 0 + e - e = y.getD j 0 := by ring
  rw [h, set_getD_self]

lemma hess_cross_cancel (x : List ℚ) (i j : Nat) (e : ℚ)
    (hi : i < x.length) (hj : j < x.length) :
    pertSub (pert (pert x i e) j e) i e = pert x j e := by
  by_cases hij : i = j
  · subst hij
    simp only [pert, pertSub]
    rw [getD_set_self_of_lt x i _ hi,
      List.set_set (x.getD i 0 + e) (x.getD i 0 + e + e) x i,
      getD_set_self_of_lt x i _ hi, List.set_set]
    have h : x.getD i 0 + e + e - e = x.getD i 0 + e := by ring
    rw [h]
  · simp only [pert, pertSub]
    rw [getD_set_of_ne x i j _ hij,
      getD_set_of_ne _ j i _ (fun h => hij h.symm),
      getD_set_self_of_lt x i _ hi]
    have h2 : x.getD i 0 + e - e = x.getD i 0 := by ring
    rw [h2, List.set_comm _ _ _ hij, List.set_set]
    have h3 : (x.set j (x.getD j 0 + e)).getD i 0 = x.getD i 0 :=
      getD_set_of_ne x j i _ (fun h => hij h.symm)
    rw [← h3, set_getD_self]

lemma hess_restore (x : List ℚ) (i j : Nat) (e : ℚ) :
    ((pert x j e).set i (x.getD i 0)).set j (x.getD j 0) = x := by
  simp only [pert]
  by_cases hij : i = j
  · subst hij
    rw [List.set_set, List.set_set, set_getD_self]
  · rw [List.set_comm _ _ _ (fun h => hij h.symm), List.set_set,
      set_getD_self, set_getD_self]

lemma hessInner_step (x : List ℚ) (f : List ℚ → ℚ) (eps : ℚ) (i j : Nat)
    (hi : i < x.length) (hj : j < x.length) (row0 : List ℚ)
    (tr0 : List (List ℚ)) :
    hessInner x f eps i (x, row0, tr0) j =
      (x, row0 ++ [hessEntry x f eps i j], tr0 ++ hessPts x eps i j) := by
  have h3 : pertSub (pert (pert x i eps) j eps) j eps = pert x i eps :=
    pert_cancel (pert x i eps) j eps (by rw [pert_length]; exact hj)
  have h5 : pertSub (pert (pert x i eps) j eps) i eps = pert x j eps :=
    hess_cross_cancel x i j eps hi hj
  have h6 : ((pert x j eps).set i (x.getD i 0)).set j (x.getD j 0) = x :=
    hess_restore x i j eps
  simp only [hessInner, hessEntry, hessPts]
  rw [h3, h5, h6]

lemma hessInner_foldl (x : List ℚ) (f : List ℚ → ℚ) (eps : ℚ) (i : Nat)
    (hi : i < x.length) (l : List Nat) (hl : ∀ j ∈ l, j < x.length)
    (row0 : List ℚ) (tr0 : List (List ℚ)) :
    l.foldl (hessInner x f eps i) (x, row0, tr0) =
      (x, row0 ++ l.map (hessEntry x f eps i),
       tr0 ++ (l.map (hessPts x eps i)).flatten) := by
  induction l generalizing row0 tr0 with
  | nil => simp
  | cons j t ih =>
    rw [List.foldl_cons,
      hessInner_step x f eps i j hi (hl j (by simp)) row0 tr0,
      ih (fun k hk => hl k (by simp [hk]))]
    simp

lemma hessRow_foldl (x : List ℚ) (f : List ℚ → ℚ) (eps : ℚ)
    (l : List Nat) (hl : ∀ i ∈ l, i < x.length) (rows0 : List (List ℚ))
    (tr0 : List (List ℚ)) :
    l.foldl (hessRowStep x f eps) (x, rows0, tr0) =
      (x,
       rows0 ++ l.map (fun i =>
         (List.range x.length).map (hessEntry x f eps i)),
       tr0 ++ (l.map (fun i =>
         ((List.range x.length).map (hessPts x eps i)).flatten)).flatten) := by
  induction l generalizing rows0 tr0 with
  | nil => simp
  | cons i t ih =>
    have hstep : hessRowStep x f eps (x, rows0, tr0) i =
        (x, rows0 ++ [(List.range x.length).map (hessEntry x f eps i)],
         tr0 ++ ((List.range x.length).map (hessPts x eps i)).flatten) := by
      simp only [hessRowStep,
        hessInner_foldl x f eps i (hl i (by simp)) (List.range x.length)
          (fun j hj => List.mem_range.mp hj), List.nil_append]
    rw [List.foldl_cons, hstep, ih (fun k hk => hl k (by simp [hk]))]
    simp

lemma finite_hessian_run_eq (x : List ℚ) (f : List ℚ → ℚ) (eps : ℚ) :
    finite_hessian_run x f eps =
      (x,
       (List.range x.length).map (fun i =>
         (List.range x.length).map (hessEntry x f eps i)),
       ((List.range x.length).map (fun i =>
         ((List.range x.length).map (hessPts x eps i)).flatten)).flatten) := by
  rw [finite_hessian_run,
    hessRow_foldl x f eps (List.range x.length)
      (fun i hi => List.mem_range.mp hi)]
  simp

/-- C2: for `eps ≠ 0`, `finite_hessian` returns an `n × n` matrix whose
entry `(i, j)` — including `i = j` — is the four-point mixed second
difference `(f(x+eps·ei+eps·ej) - f(x+eps·ei) - f(x+eps·ej) + f(x)) / eps²`,
with exactly four evaluations of `f` per pair (`4·n²` in total); the
function takes no accuracy order at all. -/
theorem finite_hessian_spec (x : List ℚ) (f : List ℚ → ℚ) (eps : ℚ)
    (heps : eps ≠ 0) :
    (finite_hessian x f eps).length = x.length ∧
    (∀ i, i < x.length →
      ((finite_hessian x f eps).getD i []).length = x.length) ∧
    (∀ i j, i < x.length → j < x.length →
      ((finite_hessian x f eps).getD i []).getD j 0 =
        (f (pert (pert x i eps) j eps) - f (pert x i eps)
          - f (pert x j eps) + f x) / (eps * eps)) ∧
    (∀ i j, i < x.length → j < x.length →
      (hessPts x eps i j).length = 4) ∧
    (finite_hessian_run x f eps).2.2.length = 4 * (x.length * x.length) := by
  refine ⟨?_, ?_, ?_, ?_, ?_⟩
  · rw [finite_hessian, finite_hessian_run_eq]
    simp
  · intro i hi
    rw [finite_hessian, finite_hessian_run_eq]
    have h1 := getD_map_range ([] : List ℚ) x.length
      (fun i => (List.range x.length).map (hessEntry x f eps i)) i hi
    rw [h1]
    simp
  · intro i j hi hj
    rw [finite_hessian, finite_hessian_run_eq]
    have h1 := getD_map_range ([] : List ℚ) x.length
      (fun i => (List.range x.length).map (hessEntry x f eps i)) i hi
    rw [h1, getD_map_range 0 x.length _ j hj, hessEntry]
  · intro i j _ _
    rfl
  · rw [finite_hessian_run_eq]
    have hinner : ∀ i : Nat,
        ((List.range x.length).map (fun j =>
          (hessPts x eps i j).length)).sum = 4 * x.length := by
      intro i
      simp [hessPts, List.map_const]
      omega
    have hshape : (((List.range x.length).map (fun i =>
        ((List.range x.length).map (hessPts x eps i)).flatten)).flatten).length
          = 4 * (x.length * x.length) := by
      simp only [List.length_flatten, List.map_map, Function.comp_def]
      simp only [hinner]
      simp [List.map_const]
      ring
    exact hshape

/-- Witness for C2 at `x = [1, 2]`, `f = sum of squares`, `eps = 1`. -/
theorem finite_hessian_spec_witness :
    (finite_hessian [(1 : ℚ), 2] (fun p => (p.map (fun t => t * t)).sum)
        1).length = ([(1 : ℚ), 2] : List ℚ).length ∧
    (∀ i, i < ([(1 : ℚ), 2] : List ℚ).length →
      ((finite_hessian [(1 : ℚ), 2] (fun p => (p.map (fun t => t * t)).sum)
          1).getD i []).length = ([(1 : ℚ), 2] : List ℚ).length) ∧
    (∀ i j, i < ([(1 : ℚ), 2] : List ℚ).length →
      j < ([(1 : ℚ), 2] : List ℚ).length →
      ((finite_hessian [(1 : ℚ), 2] (fun p => (p.map (fun t => t * t)).sum)
          1).getD i []).getD j 0 =
        ((fun p => (p.map (fun t => t * t)).sum)
            (pert (pert [(1 : ℚ), 2] i 1) j 1) -
          (fun p => (p.map (fun t => t * t)).sum) (pert [(1 : ℚ), 2] i 1) -
          (fun p => (p.map (fun t => t * t)).sum) (pert [(1 : ℚ), 2] j 1) +
          (fun p => (p.map (fun t => t * t)).sum) [(1 : ℚ), 2]) /
          ((1 : ℚ) * 1)) ∧
    (∀ i j, i < ([(1 : ℚ), 2] : List ℚ).length →
      j < ([(1 : ℚ), 2] : List ℚ).length →
      (hessPts [(1 : ℚ), 2] 1 i j).length = 4) ∧
    (finite_hessian_run [(1 : ℚ), 2] (fun p => (p.map (fun t => t * t)).sum)
        1).2.2.length =
      4 * (([(1 : ℚ), 2] : List ℚ).length * ([(1 : ℚ), 2] : List ℚ).length) :=
  finite_hessian_spec [(1 : ℚ), 2] (fun p => (p.map (fun t => t * t)).sum) 1
    (by norm_num)

lemma pert_pert_comm (x : List ℚ) (i j : Nat) (e : ℚ) (hij : i ≠ j) :
    pert (pert x i e) j e = pert (pert x j e) i e := by
  simp only [pert]
  rw [getD_set_of_ne x i j _ hij,
    getD_set_of_ne x j i _ (fun h => hij h.symm),
    List.set_comm _ _ _ hij]

lemma hessEntry_symm (x : List ℚ) (f : List ℚ → ℚ) (eps : ℚ) (i j : Nat) :
    hessEntry x f eps i j = hessEntry x f eps j i := by
  by_cases hij : i = j
  · subst hij
    rfl
  · rw [hessEntry, hessEntry, pert_pert_comm x i j eps hij]
    ring

/-- C10: in exact arithmetic the matrix returned by `finite_hessian` is
symmetric — entry `(i, j)` equals entry `(j, i)` — because the four-point
mixed-difference formula is invariant under swapping `i` and `j`. -/
theorem finite_hessian_symmetric (x : List ℚ) (f : List ℚ → ℚ) (eps : ℚ)
    (heps : eps ≠ 0) :
    ∀ i j, i < x.length → j < x.length →
      ((finite_hessian x f eps).getD i []).getD j 0 =
        ((finite_hessian x f eps).getD j []).getD i 0 := by
  intro i j hi hj
  rw [finite_hessian, finite_hessian_run_eq]
  have h1 := getD_map_range ([] : List ℚ) x.length
    (fun i => (List.range x.length).map (hessEntry x f eps i)) i hi
  have h2 := getD_map_range ([] : List ℚ) x.length
    (fun i => (List.range x.length).map (hessEntry x f eps i)) j hj
  rw [h1, h2, getD_map_range 0 x.length _ j hj,
    getD_map_range 0 x.length _ i hi]
  exact hessEntry_symm x f eps i j

/-- Witness for C10 at `x = [1, 2]`, `f = product of coordinates`,
`eps = 1`. -/
theorem finite_hessian_symmetric_witness :
    ((finite_hessian [(1 : ℚ), 2] (fun p => p.prod) 1).getD 0 []).getD 1 0 =
      ((finite_hessian [(1 : ℚ), 2] (fun p => p.prod) 1).getD 1 []).getD
        0 0 :=
  finite_hessian_symmetric [(1 : ℚ), 2] (fun p => p.prod) 1 (by norm_num)
    0 1 (by norm_num) (by norm_num)

/-- C8: after `finite_gradient`, `finite_jacobian` and `finite_hessian`
return, the working copy of the input point (the buffer `xx`, threaded
through every mutate-then-restore step) again equals the point `x` passed
by the caller: no mutation of the point survives the call. -/
theorem point_restored (x : List ℚ) (fs : List ℚ → ℚ)
    (fv : List ℚ → List ℚ) (a : Fin 4) (eps : ℚ) :
    (finite_gradient_run x fs a eps).1 = x ∧
    (finite_jacobian_run x fv a eps).1 = x ∧
    (finite_hessian_run x fs eps).1 = x := by
  refine ⟨?_, ?_, ?_⟩
  · rw [finite_gradient_run_eq]
  · rw [finite_jacobian_run_eq]
  · rw [finite_hessian_run_eq]

/-- A dense real matrix with its dimensions, as carried by
`Eigen::MatrixXd` (row-major data). -/
structure Mat where
  rows : Nat
  cols : Nat
  data : List (List ℚ)

/-- Entry `(i, j)` of a matrix. -/
def Mat.entry (M : Mat) (i j : Nat) : ℚ :=
  (M.data.getD i []).getD j 0

/-- `compare_gradient` (lines 118-141).  The `assert(x.rows() == y.rows())`
at line 124 is modelled as the `none` (fail-fast) branch; the logging on a
failing element is a side effect outside the boolean decision and is not
modelled. -/
def compare_gradient (x y : List ℚ) (test_eps : ℚ) : Option Bool :=
  if x.length = y.length then
    some ((List.range x.length).foldl (fun same d =>
      if |x.getD d 0 - y.getD d 0| >
          test_eps * max (max |x.getD d 0| |y.getD d 0|) 1 then false
      else same) true)
  else none

/-- `compare_jacobian` (lines 144-172); the two shape asserts at lines
150-151 are the `none` branch. -/
def compare_jacobian (x y : Mat) (test_eps : ℚ) : Option Bool :=
  if x.rows = y.rows ∧ x.cols = y.cols then
    some ((List.range x.rows).foldl (fun same d =>
      (List.range x.cols).foldl (fun same c =>
        if |x.entry d c - y.entry d c| >
            test_eps * max (max |x.entry d c| |y.entry d c|) 1 then false
        else same) same) true)
  else none

/-- `compare_hessian` (lines 175-182): delegates to `compare_jacobian`. -/
def compare_hessian (x y : Mat) (test_eps : ℚ) : Option Bool :=
  compare_jacobian x y test_eps

lemma foldl_flag (g : Bool → Nat → Bool) (R : Nat → Prop)
    (hg : ∀ b d, g b d = true ↔ (b = true ∧ R d)) (l : List Nat)
    (b0 : Bool) :
    (l.foldl g b0 = true) ↔ (b0 = true ∧ ∀ d ∈ l, R d) := by
  induction l generalizing b0 with
  | nil => simp
  | cons d t ih =>
    rw [List.foldl_cons, ih, hg]
    simp only [List.forall_mem_cons]
    tauto

lemma foldl_flag_if (p : Nat → Prop) [DecidablePred p] (l : List Nat)
    (b0 : Bool) :
    (l.foldl (fun b d => if p d then false else b) b0 = true) ↔
      (b0 = true ∧ ∀ d ∈ l, ¬ p d) :=
  foldl_flag _ _ (fun b d => by by_cases h : p d <;> simp [h]) l b0

lemma foldl_flag_nested (p : Nat → Nat → Prop)
    [inst : ∀ d c, Decidable (p d c)] (lo li : List Nat) (b0 : Bool) :
    (lo.foldl (fun b d =>
      li.foldl (fun b c => if p d c then false else b) b) b0 = true) ↔
      (b0 = true ∧ ∀ d ∈ lo, ∀ c ∈ li, ¬ p d c) :=
  foldl_flag _ _ (fun b d => foldl_flag_if (p d) li b) lo b0

/-- C4: on equal-shaped inputs the comparators return `true` if and only if
every corresponding element pair `(xi, yi)` satisfies the scale-guarded
bound `|xi - yi| ≤ tol * max(|xi|, |yi|, 1)`; in particular
`compare_gradient v v tol` is `true` for every `v` and every `tol ≥ 0`. -/
theorem comparator_spec (x y : List ℚ) (X Y : Mat) (tol : ℚ)
    (hxy : x.length = y.length) (hR : X.rows = Y.rows) (hC : X.cols = Y.cols)
    (htol : 0 ≤ tol) :
    (compare_gradient x y tol = some true ↔
      ∀ d, d < x.length →
        |x.getD d 0 - y.getD d 0| ≤
          tol * max (max |x.getD d 0| |y.getD d 0|) 1) ∧
    (compare_jacobian X Y tol = some true ↔
      ∀ i j, i < X.rows → j < X.cols →
        |X.entry i j - Y.entry i j| ≤
          tol * max (max |X.entry i j| |Y.entry i j|) 1) ∧
    ((¬ ∀ d, d < x.length →
        |x.getD d 0 - y.getD d 0| ≤
          tol * max (max |x.getD d 0| |y.getD d 0|) 1) →
      compare_gradient x y tol = some false) ∧
    ((¬ ∀ i j, i < X.rows → j < X.cols →
        |X.entry i j - Y.entry i j| ≤
          tol * max (max |X.entry i j| |Y.entry i j|) 1) →
      compare_jacobian X Y tol = some false) ∧
    compare_gradient x x tol = some true := by
  have hiff : compare_gradient x y tol = some true ↔
      ∀ d, d < x.length →
        |x.getD d 0 - y.getD d 0| ≤
          tol * max (max |x.getD d 0| |y.getD d 0|) 1 := by
    simp only [compare_gradient, if_pos hxy, Option.some.injEq]
    rw [foldl_flag_if]
    simp [List.mem_range, not_lt]
  have hcond : X.rows = Y.rows ∧ X.cols = Y.cols := ⟨hR, hC⟩
  have hiffJ : compare_jacobian X Y tol = some true ↔
      ∀ i j, i < X.rows → j < X.cols →
        |X.entry i j - Y.entry i j| ≤
          tol * max (max |X.entry i j| |Y.entry i j|) 1 := by
    simp only [compare_jacobian, if_pos hcond, Option.some.injEq]
    rw [foldl_flag_nested]
    simp only [List.mem_range, not_lt, true_and]
    exact ⟨fun h i j hi hj => h i hi j hj, fun h i hi j hj => h i j hi hj⟩
  have hsome : ∀ o : Option Bool, o ≠ none → o ≠ some true →
      o = some false := by
    intro o h1 h2
    rcases o with _ | b
    · exact absurd rfl h1
    · rcases b with _ | _
      · rfl
      · exact absurd rfl h2
  refine ⟨hiff, hiffJ, ?_, ?_, ?_⟩
  · intro hviol
    refine hsome _ ?_ (fun h => hviol (hiff.mp h))
    simp only [compare_gradient, if_pos hxy]
    exact Option.some_ne_none _
  · intro hviol
    refine hsome _ ?_ (fun h => hviol (hiffJ.mp h))
    simp only [compare_jacobian, if_pos hcond]
    exact Option.some_ne_none _
  · rw [compare_gradient, if_pos (rfl : x.length = x.length)]
    refine congrArg some ?_
    rw [foldl_flag_if]
    refine ⟨rfl, ?_⟩
    intro d hd
    simp only [sub_self, abs_zero, gt_iff_lt, not_lt]
    exact mul_nonneg htol (le_trans zero_le_one (le_max_right _ 1))

/-- Witness for C4 at `x = y = [1]`, `X = Y` a `1 × 1` matrix, `tol = 1`. -/
theorem comparator_spec_witness :
    (compare_gradient [(1 : ℚ)] [(1 : ℚ)] 1 = some true ↔
      ∀ d, d < ([(1 : ℚ)] : List ℚ).length →
        |([(1 : ℚ)] : List ℚ).getD d 0 - ([(1 : ℚ)] : List ℚ).getD d 0| ≤
          1 * max (max |([(1 : ℚ)] : List ℚ).getD d 0|
            |([(1 : ℚ)] : List ℚ).getD d 0|) 1) ∧
    (compare_jacobian (Mat.mk 1 1 [[(2 : ℚ)]]) (Mat.mk 1 1 [[(2 : ℚ)]]) 1 =
        some true ↔
      ∀ i j, i < (Mat.mk 1 1 [[(2 : ℚ)]]).rows →
        j < (Mat.mk 1 1 [[(2 : ℚ)]]).cols →
        |(Mat.mk 1 1 [[(2 : ℚ)]]).entry i j -
            (Mat.mk 1 1 [[(2 : ℚ)]]).entry i j| ≤
          1 * max (max |(Mat.mk 1 1 [[(2 : ℚ)]]).entry i j|
            |(Mat.mk 1 1 [[(2 : ℚ)]]).entry i j|) 1) ∧
    ((¬ ∀ d, d < ([(1 : ℚ)] : List ℚ).length →
        |([(1 : ℚ)] : List ℚ).getD d 0 - ([(1 : ℚ)] : List ℚ).getD d 0| ≤
          1 * max (max |([(1 : ℚ)] : List ℚ).getD d 0|
            |([(1 : ℚ)] : List ℚ).getD d 0|) 1) →
      compare_gradient [(1 : ℚ)] [(1 : ℚ)] 1 = some false) ∧
    ((¬ ∀ i j, i < (Mat.mk 1 1 [[(2 : ℚ)]]).rows →
        j < (Mat.mk 1 1 [[(2 : ℚ)]]).cols →
        |(Mat.mk 1 1 [[(2 : ℚ)]]).entry i j -
            (Mat.mk 1 1 [[(2 : ℚ)]]).entry i j| ≤
          1 * max (max |(Mat.mk 1 1 [[(2 : ℚ)]]).entry i j|
            |(Mat.mk 1 1 [[(2 : ℚ)]]).entry i j|) 1) →
      compare_jacobian (Mat.mk 1 1 [[(2 : ℚ)]]) (Mat.mk 1 1 [[(2 : ℚ)]]) 1 =
        some false) ∧
    compare_gradient [(1 : ℚ)] [(1 : ℚ)] 1 = some true :=
  comparator_spec [(1 : ℚ)] [(1 : ℚ)] (Mat.mk 1 1 [[(2 : ℚ)]])
    (Mat.mk 1 1 [[(2 : ℚ)]]) 1 rfl rfl rfl (by norm_num)

/-- C5: on shape-mismatched inputs the comparators fail fast with an
explicit error outcome (`none`, the model of the source's shape asserts)
instead of truncating, padding or reading out of bounds. -/
theorem comparator_shape_mismatch (x y : List ℚ) (X Y : Mat) (tol : ℚ)
    (hxy : x.length ≠ y.length)
    (hXY : ¬ (X.rows = Y.rows ∧ X.cols = Y.cols)) :
    compare_gradient x y tol = none ∧ compare_jacobian X Y tol = none := by
  constructor
  · simp only [compare_gradient, if_neg hxy]
  · simp only [compare_jacobian, if_neg hXY]

/-- Witness for C5: a 3-vector against a 4-vector, and a `1 × 1` matrix
against a `2 × 1` matrix. -/
theorem comparator_shape_mismatch_witness :
    compare_gradient [(1 : ℚ), 2, 3] [(1 : ℚ), 2, 3, 4] 1 = none ∧
    compare_jacobian (Mat.mk 1 1 [[(1 : ℚ)]])
      (Mat.mk 2 1 [[(1 : ℚ)], [(1 : ℚ)]]) 1 = none :=
  comparator_shape_mismatch [(1 : ℚ), 2, 3] [(1 : ℚ), 2, 3, 4]
    (Mat.mk 1 1 [[(1 : ℚ)]]) (Mat.mk 2 1 [[(1 : ℚ)], [(1 : ℚ)]]) 1
    (by decide) (by decide)

/-- C9: `compare_hessian` delegates entirely to the matrix comparator —
for every pair of matrices, tolerance (and label, which does not enter the
decision), it returns exactly what `compare_jacobian` returns. -/
theorem compare_hessian_delegates (X Y : Mat) (tol : ℚ) :
    compare_hessian X Y tol = compare_jacobian X Y tol := rfl

end fd
